import Mathlib

/-!
# Verification of the Merkle tree engine and position-routed recomputation

Shallow embedding of the repository's Python implementation:
- `merkle_tree.py` — `field`, `MerkleTree.__init__` / `_build_tree` / `root` / `opening`
- `hash_utils.py`  — `sha256_to_field`, `merkle_hash2` (the SHA-256 core is kept
  uninterpreted; only its reduction modulo the field modulus is modelled)
- `zk_merkle.py`   — `merkle_opening_circuit` (the Poseidon permutation is kept
  uninterpreted as a binary hash parameter; LinComb values are modelled as
  concrete field elements, and `(needle - public_root).assert_zero()` as the
  corresponding equality)

Python ints that can be negative (raw leaves, the opening index, position
values supplied by a caller) are modelled as `Int`; values already normalised
into the field are modelled as `Nat`.
-/

namespace StatelessEth

/-- BN254 field modulus, `FIELD_MODULUS` in `hash_utils.py`. -/
def FIELD_MODULUS : Nat :=
  21888242871839275222246405745257275088548364400416034343698204186575808495617

/-- `field(val) = val % FIELD_MODULUS` in `merkle_tree.py`; Python's `%` on a
positive modulus returns a representative in `[0, FIELD_MODULUS)`, which is
`Int.emod`. The result is a field element, hence `Nat`. -/
def field (val : Int) : Nat := (val % (FIELD_MODULUS : Int)).toNat

/-- `sha256_to_field(*values)` in `hash_utils.py`: the SHA-256 digest of the
fixed-width encodings, read as a big-endian integer, is kept uninterpreted as
the parameter `digest : List Nat → Nat`; the function then reduces it modulo
`FIELD_MODULUS`. -/
def sha256_to_field (digest : List Nat → Nat) (values : List Nat) : Nat :=
  digest values % FIELD_MODULUS

/-- `merkle_hash2(left, right)` in `hash_utils.py`: arity-2 Merkle parent hash,
defined as `sha256_to_field(left, right)`. -/
def merkle_hash2 (digest : List Nat → Nat) (left right : Nat) : Nat :=
  sha256_to_field digest [left, right]

/-- Errors raised by `merkle_tree.py`: `ValueError("Tree must have at least
one leaf")` in `__init__` and `IndexError("Leaf index out of range")` in
`opening`, under the spec's names. -/
inductive MerkleError where
  | invalidInput
  | indexOutOfRange
deriving DecidableEq, Repr

/-- Errors raised by the two `assert` statements guarding
`merkle_opening_circuit` in `zk_merkle.py`, under the spec's names. -/
inductive CircuitError where
  | lengthMismatch
  | invalidPositionBit
deriving DecidableEq, Repr

deriving instance DecidableEq for Except

/-- One pass of the `while` body in `MerkleTree._build_tree`: the
`for i in range(0, len(level), 2)` loop hashing adjacent pairs left-to-right,
duplicating a lone trailing element (`right = left` when `i + 1` is out of
range). -/
def buildStep (hash : Nat → Nat → Nat) : List Nat → List Nat
  | [] => []
  | [x] => [hash x x]
  | x :: y :: rest => hash x y :: buildStep hash rest

/-- Each build step halves the level length, rounding up. -/
theorem buildStep_length (hash : Nat → Nat → Nat) :
    ∀ l : List Nat, (buildStep hash l).length = (l.length + 1) / 2
  | [] => by simp [buildStep]
  | [_] => by simp [buildStep]
  | _ :: _ :: rest => by
      simp [buildStep, buildStep_length hash rest]; omega

/-- The level list built by `MerkleTree._build_tree` starting from `level`:
the initial `self.levels.append(level)` followed by the
`while len(level) > 1` loop appending `buildStep` of the previous level. -/
def buildLevels (hash : Nat → Nat → Nat) (level : List Nat) : List (List Nat) :=
  if level.length > 1 then
    level :: buildLevels hash (buildStep hash level)
  else
    [level]
  termination_by level.length
  decreasing_by rw [buildStep_length]; omega

/-- The tree state after `__init__`: the normalised leaves and the levels. -/
structure MerkleTree where
  leaves : List Nat
  levels : List (List Nat)
deriving Repr, DecidableEq

/-- `MerkleTree.__init__(leaves)`: raises `ValueError` on an empty leaf list,
otherwise normalises every leaf through `field` and builds the levels. -/
def MerkleTree.build (hash : Nat → Nat → Nat) (leaves : List Int) :
    Except MerkleError MerkleTree :=
  if leaves.length = 0 then
    .error .invalidInput
  else
    .ok ⟨leaves.map field, buildLevels hash (leaves.map field)⟩

/-- `MerkleTree.root()`: `self.levels[-1][0]`, the single element of the last
level (total via defaults; the build invariant keeps both accesses in range). -/
def MerkleTree.root (t : MerkleTree) : Nat :=
  (t.levels.getLastD []).headD 0

/-- `height()` as the spec defines it: number of levels minus one. -/
def MerkleTree.height (t : MerkleTree) : Nat :=
  t.levels.length - 1

/-- The cursor loop of `MerkleTree.opening`: for each layer below the root,
record the sibling `layer[idx ^ 1]` (or `layer[idx]` itself when `idx ^ 1` is
out of range), record `idx % 2`, and halve `idx`. The layer list passed in is
`self.levels` without its last element (`for level in range(len(levels) - 1)`).
Positions are Python ints, hence `Int`. -/
def openingWalk (idx : Nat) : List (List Nat) → List Nat × List Int
  | [] => ([], [])
  | layer :: rest =>
      let sibIdx := idx ^^^ 1
      let sib := if sibIdx ≥ layer.length then layer.getD idx 0 else layer.getD sibIdx 0
      let next := openingWalk (idx / 2) rest
      (sib :: next.1, ((idx % 2 : Nat) : Int) :: next.2)

/-- `MerkleTree.opening(index)`: bounds-check the (possibly negative) index,
then run the cursor loop over all levels except the last. -/
def MerkleTree.opening (t : MerkleTree) (index : Int) :
    Except MerkleError (List Nat × List Int) :=
  if index < 0 ∨ index ≥ (t.leaves.length : Int) then
    .error .indexOutOfRange
  else
    .ok (openingWalk index.toNat t.levels.dropLast)

/-- The walk-up loop of `merkle_opening_circuit` in `zk_merkle.py`:
`needle := leaf`; at each level, route `(left, right)` by the position bit and
set `needle := hash(left, right)`. The loop runs `for h in range(len(positions))`
indexing both lists; it is only reached when the lengths agree, so the lockstep
recursion consumes both lists together. -/
def recomputeWalk (hash : Nat → Nat → Nat) (needle : Nat) :
    List Nat → List Int → Nat
  | s :: ss, p :: ps =>
      recomputeWalk hash (if p = 0 then hash needle s else hash s needle) ss ps
  | _, _ => needle

/-- `merkle_opening_circuit(leaf, siblings, positions, public_root)`: the two
guarding `assert` statements, then the walk, then
`(needle - public_root).assert_zero()` — over the field this constrains
`needle = public_root`, returned here as the `Bool` the constraint evaluates
to on concrete values. -/
def merkle_opening_circuit (hash : Nat → Nat → Nat) (leaf : Nat)
    (siblings : List Nat) (positions : List Int) (public_root : Nat) :
    Except CircuitError Bool :=
  if siblings.length ≠ positions.length then
    .error .lengthMismatch
  else if ¬ (∀ p ∈ positions, p = 0 ∨ p = 1) then
    .error .invalidPositionBit
  else
    .ok (recomputeWalk hash leaf siblings positions == public_root)

/-- The recompute walk written the way the spec states it (§4.3): a single
left fold over the sibling/position pairs, routing the operands by the
position bit. Used to check the source loop against the spec's wording. -/
def recomputeSpec (hash : Nat → Nat → Nat) (leaf : Nat)
    (siblings : List Nat) (positions : List Int) : Nat :=
  (List.zip siblings positions).foldl
    (fun needle sp => if sp.2 = 0 then hash needle sp.1 else hash sp.1 needle) leaf

/-- A concrete, deliberately non-commutative hash used to instantiate the
hash parameter on concrete inputs. -/
def hashEx (a b : Nat) : Nat := a + 2 * b + 1

/-- A concrete stand-in for the uninterpreted SHA-256 digest. -/
def digestEx (values : List Nat) : Nat :=
  values.foldl (fun a v => a * 3 + v) 7

/-! ## Structural lemmas -/

/-- XOR with 1 on an even number sets the low bit. -/
theorem xor_one_of_even (k : Nat) : (2 * k) ^^^ 1 = 2 * k + 1 := by
  have h := Nat.xor_bit false k true 0
  simpa [Nat.bit] using h

/-- XOR with 1 on an odd number clears the low bit. -/
theorem xor_one_of_odd (k : Nat) : (2 * k + 1) ^^^ 1 = 2 * k := by
  have h := Nat.xor_bit true k true 0
  simpa [Nat.bit] using h

/-- `getLastD` of a nonempty list ignores the default. -/
theorem getLastD_ignores_default {α : Type} (l : List α) (h : l ≠ []) (d d' : α) :
    l.getLastD d = l.getLastD d' := by
  cases l with
  | nil => exact absurd rfl h
  | cons a t =>
    simp [List.getLastD_eq_getLast?, List.getLast?_eq_getLast_of_ne_nil (List.cons_ne_nil a t)]

/-- A build step maps a nonempty level to a nonempty level. -/
theorem buildStep_ne_nil (hash : Nat → Nat → Nat) (l : List Nat) (h : l ≠ []) :
    buildStep hash l ≠ [] := by
  have hlen := buildStep_length hash l
  intro hc
  rw [hc] at hlen
  have : 0 < l.length := List.length_pos.mpr h
  simp at hlen
  omega

/-- The level list is never empty. -/
theorem buildLevels_ne_nil (hash : Nat → Nat → Nat) (l : List Nat) :
    buildLevels hash l ≠ [] := by
  rw [buildLevels]
  split <;> simp

/-- The first level is the input level. -/
theorem buildLevels_getD_zero (hash : Nat → Nat → Nat) (l : List Nat) :
    (buildLevels hash l).getD 0 [] = l := by
  rw [buildLevels]
  split <;> rfl

/-- Each level after the first is the build step of its predecessor. -/
theorem buildLevels_chain (hash : Nat → Nat → Nat) (l : List Nat) :
    ∀ i : Nat, i + 1 < (buildLevels hash l).length →
      (buildLevels hash l).getD (i + 1) [] =
        buildStep hash ((buildLevels hash l).getD i []) := by
  rw [buildLevels]
  split
  case isTrue hlen =>
    intro i hi
    cases i with
    | zero =>
      simp only [List.getD_cons_succ, List.getD_cons_zero]
      rw [buildLevels_getD_zero]
    | succ k =>
      simp only [List.getD_cons_succ]
      exact buildLevels_chain hash (buildStep hash l) k (by
        simpa using Nat.lt_of_succ_lt_succ hi)
  case isFalse hlen =>
    intro i hi
    simp at hi
  termination_by l.length
  decreasing_by rw [buildStep_length]; omega

/-- The last level of a nonempty input has exactly one element. -/
theorem buildLevels_last_length (hash : Nat → Nat → Nat) (l : List Nat) (h : l ≠ []) :
    ((buildLevels hash l).getLastD []).length = 1 := by
  rw [buildLevels]
  split
  case isTrue hlen =>
    rw [List.getLastD_cons,
      getLastD_ignores_default _ (buildLevels_ne_nil hash (buildStep hash l)) l []]
    exact buildLevels_last_length hash (buildStep hash l) (buildStep_ne_nil hash l h)
  case isFalse hlen =>
    have h1 : 0 < l.length := List.length_pos.mpr h
    have hone : l.length = 1 := by omega
    simpa [List.getLastD_cons, List.getLastD_nil] using hone
  termination_by l.length
  decreasing_by rw [buildStep_length]; omega

/-- Entry `j` of a build step: the hash of the pair at `2j`, with the lone
trailing element duplicated when `2j + 1` is out of range. -/
theorem buildStep_getD (hash : Nat → Nat → Nat) :
    ∀ (l : List Nat) (j : Nat), 2 * j < l.length →
      (buildStep hash l).getD j 0 =
        hash (l.getD (2 * j) 0)
          (if 2 * j + 1 < l.length then l.getD (2 * j + 1) 0 else l.getD (2 * j) 0)
  | [], j, hj => by simp at hj
  | [x], j, hj => by
      have hj0 : j = 0 := by simp at hj; omega
      subst hj0
      simp [buildStep]
  | x :: y :: rest, j, hj => by
      cases j with
      | zero => simp [buildStep]
      | succ k =>
        have hk : 2 * k < rest.length := by simp at hj; omega
        have ih := buildStep_getD hash rest k hk
        have h2 : 2 * (k + 1) = 2 * k + 1 + 1 := by omega
        have h3 : 2 * (k + 1) + 1 = 2 * k + 1 + 1 + 1 := by omega
        simp only [buildStep, List.getD_cons_succ, h2, h3, List.length_cons]
        rw [ih]
        congr 1
        by_cases hlt : 2 * k + 1 < rest.length
        · rw [if_pos hlt, if_pos (by omega)]
        · rw [if_neg hlt, if_neg (by omega)]

/-- One step of the recompute walk, fed the sibling and position that
`opening` records at a level, lands on the parent entry of the next level. -/
theorem walk_step_eq (hash : Nat → Nat → Nat) (l : List Nat) (idx : Nat)
    (hidx : idx < l.length) :
    (if ((idx % 2 : Nat) : Int) = 0
      then hash (l.getD idx 0)
        (if idx ^^^ 1 ≥ l.length then l.getD idx 0 else l.getD (idx ^^^ 1) 0)
      else hash
        (if idx ^^^ 1 ≥ l.length then l.getD idx 0 else l.getD (idx ^^^ 1) 0)
        (l.getD idx 0)) =
    (buildStep hash l).getD (idx / 2) 0 := by
  simp only [Nat.cast_eq_zero]
  rcases Nat.even_or_odd idx with ⟨k, hk⟩ | ⟨k, hk⟩
  · -- idx = 2k: left child, sibling at 2k + 1 (duplicated when out of range)
    subst hk
    have hke : k + k = 2 * k := by omega
    rw [hke] at hidx ⊢
    have hdiv : 2 * k / 2 = k := by omega
    rw [hdiv, buildStep_getD hash l k hidx, xor_one_of_even k,
      if_pos (show 2 * k % 2 = 0 by omega)]
    congr 1
    by_cases hlt : 2 * k + 1 < l.length
    · rw [if_neg (show ¬ 2 * k + 1 ≥ l.length by omega), if_pos hlt]
    · rw [if_pos (show 2 * k + 1 ≥ l.length by omega), if_neg hlt]
  · -- idx = 2k + 1: right child, sibling at 2k (always in range)
    subst hk
    have hdiv : (2 * k + 1) / 2 = k := by omega
    rw [hdiv, buildStep_getD hash l k (by omega), xor_one_of_odd k,
      if_neg (show ¬ (2 * k + 1) % 2 = 0 by omega),
      if_neg (show ¬ 2 * k ≥ l.length by omega), if_pos hidx]

/-- The cursor loop produces one sibling and one position per layer it visits. -/
theorem openingWalk_lengths : ∀ (ls : List (List Nat)) (idx : Nat),
    (openingWalk idx ls).1.length = ls.length ∧
      (openingWalk idx ls).2.length = ls.length
  | [], _ => by simp [openingWalk]
  | _ :: rest, idx => by
      have ih := openingWalk_lengths rest (idx / 2)
      simp [openingWalk, ih.1, ih.2]

/-- Core soundness: the recompute walk over the opening extracted at a valid
cursor from the levels below the root ends at the root entry. -/
theorem recompute_buildLevels (hash : Nat → Nat → Nat) (l : List Nat) (idx : Nat)
    (hne : l ≠ []) (hidx : idx < l.length) :
    recomputeWalk hash (l.getD idx 0)
        (openingWalk idx (buildLevels hash l).dropLast).1
        (openingWalk idx (buildLevels hash l).dropLast).2 =
      ((buildLevels hash l).getLastD []).headD 0 := by
  rw [buildLevels]
  split
  case isTrue hlen =>
    obtain ⟨c, cs, hcc⟩ :=
      List.exists_cons_of_ne_nil (buildLevels_ne_nil hash (buildStep hash l))
    rw [hcc, List.dropLast_cons₂, List.getLastD_cons,
      getLastD_ignores_default (c :: cs) (List.cons_ne_nil c cs) l [], ← hcc]
    simp only [openingWalk, recomputeWalk]
    rw [walk_step_eq hash l idx hidx]
    exact recompute_buildLevels hash (buildStep hash l) (idx / 2)
      (buildStep_ne_nil hash l hne)
      (by rw [buildStep_length]; omega)
  case isFalse hlen =>
    rcases l with _ | ⟨x, t⟩
    · exact absurd rfl hne
    · have ht : t = [] := by
        simp only [List.length_cons, gt_iff_lt, not_lt] at hlen
        exact List.eq_nil_of_length_eq_zero (by omega)
      subst ht
      have hidx0 : idx = 0 := by simp at hidx; omega
      subst hidx0
      simp [openingWalk, recomputeWalk, List.getLastD_cons, List.getLastD_nil]
  termination_by l.length
  decreasing_by rw [buildStep_length]; omega

/-- `getD` below the last index commutes with `dropLast`. -/
theorem getD_dropLast {α : Type} (l : List α) (h : Nat) (d : α) (hh : h < l.length - 1) :
    l.dropLast.getD h d = l.getD h d := by
  rw [List.getD_eq_getElem _ _ (by rw [List.length_dropLast]; omega),
    List.getD_eq_getElem _ _ (by omega), List.getElem_dropLast]

/-- `headD` is `getD` at index 0. -/
theorem headD_eq_getD_zero {α : Type} (l : List α) (d : α) : l.headD d = l.getD 0 d := by
  cases l <;> simp

/-- The defaulted last element of a nonempty list is a member. -/
theorem getLastD_mem (ls : List (List Nat)) (hne : ls ≠ []) : ls.getLastD [] ∈ ls := by
  cases ls with
  | nil => exact absurd rfl hne
  | cons a t =>
    rw [List.getLastD_cons]
    cases t with
    | nil => simp
    | cons b u =>
      rw [List.getLastD_eq_getLast?,
        List.getLast?_eq_getLast_of_ne_nil (List.cons_ne_nil b u)]
      exact List.mem_cons_of_mem a (List.getLast_mem _)

/-- Closed form of the cursor loop: at layer `h` the cursor sits at
`idx / 2 ^ h`; the recorded sibling applies the XOR-with-bounds rule there and
the recorded position is the cursor's parity. -/
theorem openingWalk_spec : ∀ (ls : List (List Nat)) (idx h : Nat), h < ls.length →
    (openingWalk idx ls).1.getD h 0 =
      (if (idx / 2 ^ h) ^^^ 1 ≥ (ls.getD h []).length
        then (ls.getD h []).getD (idx / 2 ^ h) 0
        else (ls.getD h []).getD ((idx / 2 ^ h) ^^^ 1) 0) ∧
    (openingWalk idx ls).2.getD h 0 = ((idx / 2 ^ h % 2 : Nat) : Int)
  | [], _, h, hh => by simp at hh
  | layer :: rest, idx, 0, _ => by
      simp [openingWalk]
  | layer :: rest, idx, h + 1, hh => by
      have ih := openingWalk_spec rest (idx / 2) h (by
        simpa using Nat.lt_of_succ_lt_succ hh)
      have hdiv : idx / 2 / 2 ^ h = idx / 2 ^ (h + 1) := by
        rw [Nat.div_div_eq_div_mul, pow_succ, Nat.mul_comm]
      simp only [openingWalk, List.getD_cons_succ]
      rw [← hdiv]
      exact ih

/-- The cursor stays in bounds: halving a valid index tracks the
ceil-halving of the level lengths. -/
theorem cursor_lt (hash : Nat → Nat → Nat) (l : List Nat) (idx : Nat)
    (hidx : idx < l.length) :
    ∀ h : Nat, h < (buildLevels hash l).length →
      idx / 2 ^ h < ((buildLevels hash l).getD h []).length := by
  intro h
  induction h with
  | zero =>
    intro _
    rw [buildLevels_getD_zero]
    simpa using hidx
  | succ k ih =>
    intro hk
    have hchain := buildLevels_chain hash l k hk
    rw [hchain, buildStep_length]
    have hklt : k < (buildLevels hash l).length := by omega
    have hprev := ih hklt
    have hdiv : idx / 2 ^ (k + 1) = idx / 2 ^ k / 2 := by
      rw [Nat.div_div_eq_div_mul, pow_succ]
    rw [hdiv]
    omega

/-- The modulus is positive. -/
theorem field_modulus_pos : 0 < FIELD_MODULUS := by
  rw [FIELD_MODULUS]; omega

/-- Leaf normalisation lands in the field. -/
theorem field_lt (x : Int) : field x < FIELD_MODULUS := by
  rw [field]
  have hp : (0 : Int) < (FIELD_MODULUS : Int) := by exact_mod_cast field_modulus_pos
  have h := Int.emod_lt_of_pos x hp
  omega

/-- The off-circuit parent hash lands in the field, whatever the digest does. -/
theorem merkle_hash2_lt (digest : List Nat → Nat) (left right : Nat) :
    merkle_hash2 digest left right < FIELD_MODULUS :=
  Nat.mod_lt _ field_modulus_pos

/-- A build step with an in-field hash maps an in-field level to an
in-field level. -/
theorem buildStep_all_lt (hash : Nat → Nat → Nat)
    (hhash : ∀ a b, hash a b < FIELD_MODULUS) :
    ∀ l : List Nat, ∀ v ∈ buildStep hash l, v < FIELD_MODULUS
  | [] => by simp [buildStep]
  | [x] => by simp [buildStep]; exact hhash x x
  | x :: y :: rest => by
      intro v hv
      rw [buildStep, List.mem_cons] at hv
      rcases hv with rfl | hv
      · exact hhash x y
      · exact buildStep_all_lt hash hhash rest v hv

/-- Every level built over an in-field level with an in-field hash is
in-field. -/
theorem buildLevels_all_lt (hash : Nat → Nat → Nat)
    (hhash : ∀ a b, hash a b < FIELD_MODULUS) (l : List Nat)
    (hl : ∀ v ∈ l, v < FIELD_MODULUS) :
    ∀ lvl ∈ buildLevels hash l, ∀ v ∈ lvl, v < FIELD_MODULUS := by
  rw [buildLevels]
  split
  case isTrue hlen =>
    intro lvl hlvl
    rw [List.mem_cons] at hlvl
    rcases hlvl with rfl | hlvl
    · exact hl
    · exact buildLevels_all_lt hash hhash (buildStep hash l)
        (buildStep_all_lt hash hhash l) lvl hlvl
  case isFalse hlen =>
    intro lvl hlvl
    rw [List.mem_singleton] at hlvl
    subst hlvl
    exact hl
  termination_by l.length
  decreasing_by rw [buildStep_length]; omega

/-- A defaulted lookup in an in-field level is in-field. -/
theorem getD_lt (l : List Nat) (hl : ∀ v ∈ l, v < FIELD_MODULUS) (i : Nat) :
    l.getD i 0 < FIELD_MODULUS := by
  by_cases hi : i < l.length
  · rw [List.getD_eq_getElem _ _ hi]
    exact hl _ (List.getElem_mem hi)
  · rw [List.getD_eq_default _ _ (by omega)]
    exact field_modulus_pos

/-- Every sibling the cursor loop records over in-field layers is in-field. -/
theorem openingWalk_sibs_lt :
    ∀ (ls : List (List Nat)) (idx : Nat),
      (∀ lvl ∈ ls, ∀ v ∈ lvl, v < FIELD_MODULUS) →
      ∀ s ∈ (openingWalk idx ls).1, s < FIELD_MODULUS
  | [], _, _ => by simp [openingWalk]
  | layer :: rest, idx, hls => by
      intro s hs
      rw [openingWalk] at hs
      simp only [List.mem_cons] at hs
      rcases hs with rfl | hs
      · have hlayer := hls layer (List.mem_cons_self layer rest)
        split <;> exact getD_lt layer hlayer _
      · exact openingWalk_sibs_lt rest (idx / 2)
          (fun lvl hlvl => hls lvl (List.mem_cons_of_mem layer hlvl)) s hs

/-- The source loop and the spec's fold agree. -/
theorem recomputeWalk_eq_recomputeSpec (hash : Nat → Nat → Nat) :
    ∀ (siblings : List Nat) (positions : List Int) (leaf : Nat),
      recomputeWalk hash leaf siblings positions =
        recomputeSpec hash leaf siblings positions
  | [], [], _ => rfl
  | [], _ :: _, _ => rfl
  | _ :: _, [], _ => rfl
  | s :: ss, p :: ps, leaf => by
      rw [recomputeWalk, recomputeSpec, List.zip_cons_cons, List.foldl_cons]
      exact recomputeWalk_eq_recomputeSpec hash ss ps _

/-- A successful construction comes exactly from a nonempty leaf list, and
the tree it returns stores the reduced leaves and the built levels. -/
theorem build_ok (hash : Nat → Nat → Nat) (leaves : List Int) (t : MerkleTree)
    (hbuild : MerkleTree.build hash leaves = .ok t) :
    leaves ≠ [] ∧ t = ⟨leaves.map field, buildLevels hash (leaves.map field)⟩ := by
  rw [MerkleTree.build] at hbuild
  split at hbuild
  case isTrue => exact absurd hbuild (by simp)
  case isFalse hlen =>
    injection hbuild with ht
    exact ⟨fun hc => hlen (by simp [hc]), ht.symm⟩

/-! ## The claims -/

/-- C1: Inclusion soundness — for every tree built from a non-empty leaf
sequence and every valid leaf index `i`, `opening(i)` succeeds and running the
recomputation walk on the tree's leaf `i` with the returned siblings and
positions, under the same hash the tree was built with, yields `root()`. -/
theorem C1_inclusion_soundness (hash : Nat → Nat → Nat) (leaves : List Int)
    (t : MerkleTree) (i : Nat)
    (hbuild : MerkleTree.build hash leaves = .ok t) (hi : i < t.leaves.length) :
    ∃ sibs poss, t.opening (i : Int) = .ok (sibs, poss) ∧
      recomputeWalk hash (t.leaves.getD i 0) sibs poss = t.root := by
  obtain ⟨hne0, rfl⟩ := build_ok hash leaves t hbuild
  have hi' : i < (leaves.map field).length := hi
  have hne : leaves.map field ≠ [] := by
    intro hc
    exact hne0 (by simpa using congrArg List.length hc)
  have hcond : ¬ ((i : Int) < 0 ∨
      (i : Int) ≥ (((leaves.map field) : List Nat).length : Int)) := by
    push_neg
    exact ⟨Int.natCast_nonneg i, by exact_mod_cast hi'⟩
  refine ⟨(openingWalk i (buildLevels hash (leaves.map field)).dropLast).1,
    (openingWalk i (buildLevels hash (leaves.map field)).dropLast).2, ?_, ?_⟩
  · rw [MerkleTree.opening, if_neg hcond, Int.toNat_natCast]
  · exact recompute_buildLevels hash (leaves.map field) i hne hi'

/-- C1 witness: the three-leaf tree under `hashEx`, opened at index 2. -/
theorem C1_inclusion_soundness_witness :
    ∃ sibs poss,
      (MerkleTree.mk [1, 2, 3] [[1, 2, 3], [6, 10], [27]]).opening ((2 : Nat) : Int) =
        .ok (sibs, poss) ∧
      recomputeWalk hashEx
        ((MerkleTree.mk [1, 2, 3] [[1, 2, 3], [6, 10], [27]]).leaves.getD 2 0) sibs poss =
        (MerkleTree.mk [1, 2, 3] [[1, 2, 3], [6, 10], [27]]).root :=
  C1_inclusion_soundness hashEx [1, 2, 3] ⟨[1, 2, 3], [[1, 2, 3], [6, 10], [27]]⟩ 2
    (by simp +decide [MerkleTree.build, buildLevels, buildStep, field, hashEx, FIELD_MODULUS])
    (by decide)

/-- C2: Build-level invariant — level 0 is the field-reduced leaf sequence,
each subsequent level's length is `ceil(prevLength / 2)`, the last level has
exactly one element, and each parent is the hash of its two children, with a
lone trailing node hashed with itself (both operands `level[i][2j]`), never
promoted unchanged. -/
theorem C2_build_invariant (hash : Nat → Nat → Nat) (leaves : List Int)
    (t : MerkleTree) (hbuild : MerkleTree.build hash leaves = .ok t) :
    t.levels.getD 0 [] = leaves.map field ∧
    (∀ i : Nat, i + 1 < t.levels.length →
      (t.levels.getD (i + 1) []).length = ((t.levels.getD i []).length + 1) / 2) ∧
    (t.levels.getLastD []).length = 1 ∧
    (∀ i j : Nat, i + 1 < t.levels.length → j < (t.levels.getD (i + 1) []).length →
      (t.levels.getD (i + 1) []).getD j 0 =
        hash ((t.levels.getD i []).getD (2 * j) 0)
          (if 2 * j + 1 < (t.levels.getD i []).length
            then (t.levels.getD i []).getD (2 * j + 1) 0
            else (t.levels.getD i []).getD (2 * j) 0)) := by
  obtain ⟨hne0, rfl⟩ := build_ok hash leaves t hbuild
  have hne : leaves.map field ≠ [] := by
    intro hc
    exact hne0 (by simpa using congrArg List.length hc)
  refine ⟨buildLevels_getD_zero hash _, ?_, buildLevels_last_length hash _ hne, ?_⟩
  · intro i hi
    rw [buildLevels_chain hash _ i hi, buildStep_length]
  · intro i j hi hj
    rw [buildLevels_chain hash _ i hi] at hj ⊢
    rw [buildStep_length] at hj
    exact buildStep_getD hash _ j (by omega)

/-- C2 witness: the three-leaf tree under `hashEx`. -/
theorem C2_build_invariant_witness :
    (MerkleTree.mk [1, 2, 3] [[1, 2, 3], [6, 10], [27]]).levels.getD 0 [] =
        ([1, 2, 3] : List Int).map field ∧
    (∀ i : Nat, i + 1 < (MerkleTree.mk [1, 2, 3] [[1, 2, 3], [6, 10], [27]]).levels.length →
      ((MerkleTree.mk [1, 2, 3] [[1, 2, 3], [6, 10], [27]]).levels.getD (i + 1) []).length =
        (((MerkleTree.mk [1, 2, 3] [[1, 2, 3], [6, 10], [27]]).levels.getD i []).length + 1) / 2) ∧
    ((MerkleTree.mk [1, 2, 3] [[1, 2, 3], [6, 10], [27]]).levels.getLastD []).length = 1 ∧
    (∀ i j : Nat,
      i + 1 < (MerkleTree.mk [1, 2, 3] [[1, 2, 3], [6, 10], [27]]).levels.length →
      j < ((MerkleTree.mk [1, 2, 3] [[1, 2, 3], [6, 10], [27]]).levels.getD (i + 1) []).length →
      ((MerkleTree.mk [1, 2, 3] [[1, 2, 3], [6, 10], [27]]).levels.getD (i + 1) []).getD j 0 =
        hashEx (((MerkleTree.mk [1, 2, 3] [[1, 2, 3], [6, 10], [27]]).levels.getD i []).getD (2 * j) 0)
          (if 2 * j + 1 < ((MerkleTree.mk [1, 2, 3] [[1, 2, 3], [6, 10], [27]]).levels.getD i []).length
            then ((MerkleTree.mk [1, 2, 3] [[1, 2, 3], [6, 10], [27]]).levels.getD i []).getD (2 * j + 1) 0
            else ((MerkleTree.mk [1, 2, 3] [[1, 2, 3], [6, 10], [27]]).levels.getD i []).getD (2 * j) 0)) :=
  C2_build_invariant hashEx [1, 2, 3] ⟨[1, 2, 3], [[1, 2, 3], [6, 10], [27]]⟩
    (by simp +decide [MerkleTree.build, buildLevels, buildStep, field, hashEx, FIELD_MODULUS])

/-- C3: Opening extraction — for every built tree and valid index, the
returned siblings and positions each have length `height()` (levels minus
one), and at each level `h` the cursor sits at `index / 2 ^ h` (the `idx`
halved once per level), the recorded position is the cursor's parity, and the
recorded sibling is `level[idx XOR 1]` when in bounds and `level[idx]` itself
otherwise. -/
theorem C3_opening_algorithm (hash : Nat → Nat → Nat) (leaves : List Int)
    (t : MerkleTree) (i : Nat) (sibs : List Nat) (poss : List Int)
    (hbuild : MerkleTree.build hash leaves = .ok t)
    (hopen : t.opening (i : Int) = .ok (sibs, poss)) :
    sibs.length = t.height ∧ poss.length = t.height ∧
    (∀ h : Nat, h < t.height →
      poss.getD h 0 = ((i / 2 ^ h % 2 : Nat) : Int) ∧
      sibs.getD h 0 =
        (if (i / 2 ^ h) ^^^ 1 < (t.levels.getD h []).length
          then (t.levels.getD h []).getD ((i / 2 ^ h) ^^^ 1) 0
          else (t.levels.getD h []).getD (i / 2 ^ h) 0)) := by
  obtain ⟨hne0, rfl⟩ := build_ok hash leaves t hbuild
  rw [MerkleTree.opening] at hopen
  split at hopen
  · exact absurd hopen (by simp)
  case isFalse hcond =>
    rw [Int.toNat_natCast] at hopen
    injection hopen with hpair
    have hsibs : sibs = (openingWalk i (buildLevels hash (leaves.map field)).dropLast).1 := by
      rw [hpair]
    have hposs : poss = (openingWalk i (buildLevels hash (leaves.map field)).dropLast).2 := by
      rw [hpair]
    subst hsibs hposs
    simp only [MerkleTree.height, MerkleTree.levels]
    have hdl : (buildLevels hash (leaves.map field)).dropLast.length =
        (buildLevels hash (leaves.map field)).length - 1 := List.length_dropLast _
    refine ⟨?_, ?_, ?_⟩
    · rw [(openingWalk_lengths _ i).1, hdl]
    · rw [(openingWalk_lengths _ i).2, hdl]
    · intro h hh
      have hh' : h < (buildLevels hash (leaves.map field)).dropLast.length := by
        rw [hdl]; exact hh
      obtain ⟨hsib, hpos⟩ := openingWalk_spec _ i h hh'
      refine ⟨hpos, ?_⟩
      rw [hsib, getD_dropLast _ h [] (by rw [← hdl]; exact hh')]
      by_cases hc : (i / 2 ^ h) ^^^ 1 ≥
          ((buildLevels hash (leaves.map field)).getD h []).length
      · rw [if_pos hc, if_neg (by omega)]
      · rw [if_neg hc, if_pos (by omega)]

/-- C3 witness: the three-leaf tree under `hashEx`, opened at index 2. -/
theorem C3_opening_algorithm_witness :
    ([3, 6] : List Nat).length = (MerkleTree.mk [1, 2, 3] [[1, 2, 3], [6, 10], [27]]).height ∧
    ([0, 1] : List Int).length = (MerkleTree.mk [1, 2, 3] [[1, 2, 3], [6, 10], [27]]).height ∧
    (∀ h : Nat, h < (MerkleTree.mk [1, 2, 3] [[1, 2, 3], [6, 10], [27]]).height →
      ([0, 1] : List Int).getD h 0 = ((2 / 2 ^ h % 2 : Nat) : Int) ∧
      ([3, 6] : List Nat).getD h 0 =
        (if (2 / 2 ^ h) ^^^ 1 <
            ((MerkleTree.mk [1, 2, 3] [[1, 2, 3], [6, 10], [27]]).levels.getD h []).length
          then ((MerkleTree.mk [1, 2, 3] [[1, 2, 3], [6, 10], [27]]).levels.getD h []).getD
            ((2 / 2 ^ h) ^^^ 1) 0
          else ((MerkleTree.mk [1, 2, 3] [[1, 2, 3], [6, 10], [27]]).levels.getD h []).getD
            (2 / 2 ^ h) 0)) :=
  C3_opening_algorithm hashEx [1, 2, 3] ⟨[1, 2, 3], [[1, 2, 3], [6, 10], [27]]⟩ 2 [3, 6] [0, 1]
    (by simp +decide [MerkleTree.build, buildLevels, buildStep, field, hashEx, FIELD_MODULUS])
    (by decide)

/-- C4: Recompute walk — on inputs with matching lengths and position bits in
`{0, 1}`, the circuit runs the in-order position-routed walk (needle on the
left for bit 0, on the right otherwise) and asserts the final needle's
equality with the public root; the walk equals the spec's left fold over the
sibling/position pairs, with operand order preserved. -/
theorem C4_recompute_walk (hash : Nat → Nat → Nat) (leaf : Nat)
    (siblings : List Nat) (positions : List Int) (public_root : Nat)
    (hlen : siblings.length = positions.length)
    (hpos : ∀ p ∈ positions, p = 0 ∨ p = 1) :
    merkle_opening_circuit hash leaf siblings positions public_root =
      .ok (recomputeSpec hash leaf siblings positions == public_root) := by
  rw [merkle_opening_circuit, if_neg (not_not_intro hlen), if_neg (not_not_intro hpos),
    recomputeWalk_eq_recomputeSpec]

/-- C4 witness: the opening of index 2 in the three-leaf tree under `hashEx`. -/
theorem C4_recompute_walk_witness :
    merkle_opening_circuit hashEx 3 [3, 6] [0, 1] 27 =
      .ok (recomputeSpec hashEx 3 [3, 6] [0, 1] == 27) :=
  C4_recompute_walk hashEx 3 [3, 6] [0, 1] 27 (by decide) (by decide)

/-- C5: Singleton tree — a tree built from exactly one leaf has height 0,
`opening(0)` returns empty sequences, and the root is the field reduction of
the leaf. -/
theorem C5_singleton (hash : Nat → Nat → Nat) (x : Int) (t : MerkleTree)
    (hbuild : MerkleTree.build hash [x] = .ok t) :
    t.height = 0 ∧ t.opening 0 = .ok ([], []) ∧ t.root = field x := by
  obtain ⟨-, rfl⟩ := build_ok hash [x] t hbuild
  have hbl : buildLevels hash [field x] = [[field x]] := by
    rw [buildLevels]
    simp
  refine ⟨?_, ?_, ?_⟩
  · simp [MerkleTree.height, List.map, hbl]
  · rw [MerkleTree.opening]
    simp [List.map, hbl, openingWalk]
  · simp [MerkleTree.root, List.map, hbl]

/-- C5 witness: the singleton tree over the single leaf 7 under `hashEx`. -/
theorem C5_singleton_witness :
    (MerkleTree.mk [7] [[7]]).height = 0 ∧
    (MerkleTree.mk [7] [[7]]).opening 0 = .ok ([], []) ∧
    (MerkleTree.mk [7] [[7]]).root = field 7 :=
  C5_singleton hashEx 7 ⟨[7], [[7]]⟩
    (by simp +decide [MerkleTree.build, buildLevels, field, FIELD_MODULUS])

/-- C6 counterexample: on `siblings = []`, `positions = [2]` the position 2 is
not 0 or 1, yet the circuit does not fail with `InvalidPositionBit`: the
length check runs first and it fails with `LengthMismatch`. -/
theorem C6_guards_counterexample :
    ¬ ((2 : Int) = 0 ∨ (2 : Int) = 1) ∧
    merkle_opening_circuit hashEx 0 [] [2] 0 = .error .lengthMismatch ∧
    merkle_opening_circuit hashEx 0 [] [2] 0 ≠ .error .invalidPositionBit :=
  ⟨by decide, by decide, by decide⟩

/-- C6 amended: the circuit fails with `LengthMismatch` exactly when the
lengths differ; it fails with `InvalidPositionBit` exactly when the lengths
agree and some position is not 0 or 1 (the length check takes precedence);
and either failure is decided before any hashing: the error does not depend
on the hash function. -/
theorem C6_error_guards (hash : Nat → Nat → Nat) (leaf : Nat) (siblings : List Nat)
    (positions : List Int) (public_root : Nat) :
    (merkle_opening_circuit hash leaf siblings positions public_root =
        .error .lengthMismatch ↔ siblings.length ≠ positions.length) ∧
    (merkle_opening_circuit hash leaf siblings positions public_root =
        .error .invalidPositionBit ↔
      siblings.length = positions.length ∧ ¬ ∀ p ∈ positions, p = 0 ∨ p = 1) ∧
    (∀ (hash2 : Nat → Nat → Nat) (e : CircuitError),
      merkle_opening_circuit hash leaf siblings positions public_root = .error e →
        merkle_opening_circuit hash2 leaf siblings positions public_root = .error e) := by
  refine ⟨?_, ?_, ?_⟩
  · rw [merkle_opening_circuit]
    by_cases h1 : siblings.length ≠ positions.length
    · rw [if_pos h1]
      exact iff_of_true rfl h1
    · rw [if_neg h1]
      constructor
      · intro hc
        by_cases h2 : ∀ p ∈ positions, p = 0 ∨ p = 1
        · rw [if_neg (not_not_intro h2)] at hc
          exact Except.noConfusion hc
        · rw [if_pos h2] at hc
          injection hc with h
          exact CircuitError.noConfusion h
      · intro hc
        exact absurd hc h1
  · rw [merkle_opening_circuit]
    by_cases h1 : siblings.length ≠ positions.length
    · rw [if_pos h1]
      constructor
      · intro hc
        injection hc with h
        exact CircuitError.noConfusion h
      · rintro ⟨he, -⟩
        exact absurd he h1
    · rw [if_neg h1]
      by_cases h2 : ∀ p ∈ positions, p = 0 ∨ p = 1
      · rw [if_neg (not_not_intro h2)]
        constructor
        · intro hc
          exact Except.noConfusion hc
        · rintro ⟨-, hbad⟩
          exact absurd h2 hbad
      · rw [if_pos h2]
        exact iff_of_true rfl ⟨not_not.mp h1, h2⟩
  · intro hash2 e he
    rw [merkle_opening_circuit] at he ⊢
    by_cases h1 : siblings.length ≠ positions.length
    · rw [if_pos h1] at he ⊢
      exact he
    · rw [if_neg h1] at he ⊢
      by_cases h2 : ∀ p ∈ positions, p = 0 ∨ p = 1
      · rw [if_neg (not_not_intro h2)] at he
        exact Except.noConfusion he
      · rw [if_pos h2] at he ⊢
        exact he

/-- C6 witness: the amended guards at `siblings = []`, `positions = [2]`. -/
theorem C6_error_guards_witness :
    (merkle_opening_circuit hashEx 0 [] [2] 0 = .error .lengthMismatch ↔
      ([] : List Nat).length ≠ ([2] : List Int).length) ∧
    (merkle_opening_circuit hashEx 0 [] [2] 0 = .error .invalidPositionBit ↔
      ([] : List Nat).length = ([2] : List Int).length ∧
        ¬ ∀ p ∈ ([2] : List Int), p = 0 ∨ p = 1) ∧
    (∀ (hash2 : Nat → Nat → Nat) (e : CircuitError),
      merkle_opening_circuit hashEx 0 [] [2] 0 = .error e →
        merkle_opening_circuit hash2 0 [] [2] 0 = .error e) :=
  C6_error_guards hashEx 0 [] [2] 0

/-- C7: Construction fails with `InvalidInput` when and only when the leaf
sequence is empty; every non-empty leaf sequence builds successfully. -/
theorem C7_build_empty_leaves (hash : Nat → Nat → Nat) (leaves : List Int) :
    (MerkleTree.build hash leaves = .error .invalidInput ↔ leaves = []) ∧
    (leaves ≠ [] → ∃ t, MerkleTree.build hash leaves = .ok t) := by
  rw [MerkleTree.build]
  by_cases h : leaves.length = 0
  · rw [if_pos h]
    have hnil : leaves = [] := List.length_eq_zero.mp h
    exact ⟨iff_of_true rfl hnil, fun hne => absurd hnil hne⟩
  · rw [if_neg h]
    refine ⟨⟨fun hc => Except.noConfusion hc, fun hc => absurd (by simp [hc]) h⟩,
      fun _ => ⟨_, rfl⟩⟩

/-- C7 witness: the one-element leaf list under `hashEx`. -/
theorem C7_build_empty_leaves_witness :
    (MerkleTree.build hashEx [5] = .error .invalidInput ↔ ([5] : List Int) = []) ∧
    (([5] : List Int) ≠ [] → ∃ t, MerkleTree.build hashEx [5] = .ok t) :=
  C7_build_empty_leaves hashEx [5]

/-- C8: Opening bounds — for every built tree, `opening(index)` fails with
`IndexOutOfRange` exactly when `index < 0` or `index ≥ leafCount` (the tree
stores one reduced leaf per input leaf), and succeeds for every index in
`[0, leafCount)`. -/
theorem C8_opening_bounds (hash : Nat → Nat → Nat) (leaves : List Int)
    (t : MerkleTree) (index : Int)
    (hbuild : MerkleTree.build hash leaves = .ok t) :
    t.leaves.length = leaves.length ∧
    (t.opening index = .error .indexOutOfRange ↔
      index < 0 ∨ index ≥ (t.leaves.length : Int)) ∧
    (0 ≤ index → index < (t.leaves.length : Int) → ∃ o, t.opening index = .ok o) := by
  obtain ⟨-, rfl⟩ := build_ok hash leaves t hbuild
  simp only [MerkleTree.leaves]
  refine ⟨by simp, ?_, ?_⟩
  · rw [MerkleTree.opening]
    by_cases hc : index < 0 ∨ index ≥ (((leaves.map field) : List Nat).length : Int)
    · rw [if_pos hc]
      exact iff_of_true rfl hc
    · rw [if_neg hc]
      exact ⟨fun hfail => Except.noConfusion hfail, fun hcond => absurd hcond hc⟩
  · intro h0 hlt
    rw [MerkleTree.opening, if_neg (by push_neg; exact ⟨h0, hlt⟩)]
    exact ⟨_, rfl⟩

/-- C8 witness: the three-leaf tree under `hashEx` at index 3 (and, through
the bundled success conjunct, at any in-range index). -/
theorem C8_opening_bounds_witness :
    (MerkleTree.mk [1, 2, 3] [[1, 2, 3], [6, 10], [27]]).leaves.length =
      ([1, 2, 3] : List Int).length ∧
    ((MerkleTree.mk [1, 2, 3] [[1, 2, 3], [6, 10], [27]]).opening 3 =
        .error .indexOutOfRange ↔
      (3 : Int) < 0 ∨ (3 : Int) ≥
        (((MerkleTree.mk [1, 2, 3] [[1, 2, 3], [6, 10], [27]]).leaves.length : Nat) : Int)) ∧
    ((0 : Int) ≤ 3 →
      (3 : Int) < (((MerkleTree.mk [1, 2, 3] [[1, 2, 3], [6, 10], [27]]).leaves.length : Nat) : Int) →
      ∃ o, (MerkleTree.mk [1, 2, 3] [[1, 2, 3], [6, 10], [27]]).opening 3 = .ok o) :=
  C8_opening_bounds hashEx [1, 2, 3] ⟨[1, 2, 3], [[1, 2, 3], [6, 10], [27]]⟩ 3
    (by simp +decide [MerkleTree.build, buildLevels, buildStep, field, hashEx, FIELD_MODULUS])

/-- C9: whenever the opening records a self-duplicated sibling (the cursor's
XOR-partner is out of the level's bounds), the recorded position bit at that
level is 0: the lone trailing node is the left hash operand, matching the
build-time duplication. -/
theorem C9_self_sibling_is_left (hash : Nat → Nat → Nat) (leaves : List Int)
    (t : MerkleTree) (i : Nat) (sibs : List Nat) (poss : List Int) (h : Nat)
    (hbuild : MerkleTree.build hash leaves = .ok t)
    (hopen : t.opening (i : Int) = .ok (sibs, poss))
    (hh : h < t.height)
    (hself : (i / 2 ^ h) ^^^ 1 ≥ (t.levels.getD h []).length) :
    poss.getD h 0 = 0 := by
  obtain ⟨hne0, rfl⟩ := build_ok hash leaves t hbuild
  simp only [MerkleTree.height, MerkleTree.levels] at hh hself ⊢
  rw [MerkleTree.opening] at hopen
  split at hopen
  · exact absurd hopen (by simp)
  case isFalse hcond =>
    rw [Int.toNat_natCast] at hopen
    injection hopen with hpair
    have hposs : poss =
        (openingWalk i (buildLevels hash (leaves.map field)).dropLast).2 := by
      rw [hpair]
    subst hposs
    push_neg at hcond
    have hi : i < (leaves.map field).length := by
      have := hcond.2
      simp only [MerkleTree.leaves] at this
      exact_mod_cast this
    have hcur := cursor_lt hash (leaves.map field) i hi h (by omega)
    have hpar : i / 2 ^ h % 2 = 0 := by
      rcases Nat.even_or_odd (i / 2 ^ h) with ⟨k, hk⟩ | ⟨k, hk⟩
      · omega
      · rw [hk] at hself hcur
        rw [xor_one_of_odd] at hself
        omega
    have hspec := (openingWalk_spec
      ((buildLevels hash (leaves.map field)).dropLast) i h
      (by rw [List.length_dropLast]; omega)).2
    rw [hspec, hpar]
    rfl

/-- C9 witness: in the three-leaf tree the leaf at index 2 is the lone
trailing node at the leaf level; its recorded position bit is 0. -/
theorem C9_self_sibling_is_left_witness : ([0, 1] : List Int).getD 0 0 = 0 :=
  C9_self_sibling_is_left hashEx [1, 2, 3] ⟨[1, 2, 3], [[1, 2, 3], [6, 10], [27]]⟩
    2 [3, 6] [0, 1] 0
    (by simp +decide [MerkleTree.build, buildLevels, buildStep, field, hashEx, FIELD_MODULUS])
    (by decide) (by decide) (by decide)

/-- C10: with the off-circuit hash (SHA-256 digest reduced mod the modulus),
every element of every level of a built tree is in `[0, FIELD_MODULUS)`; in
particular so are the root and every sibling any successful opening returns. -/
theorem C10_field_range (digest : List Nat → Nat) (leaves : List Int) (t : MerkleTree)
    (hbuild : MerkleTree.build (merkle_hash2 digest) leaves = .ok t) :
    (∀ lvl ∈ t.levels, ∀ v ∈ lvl, v < FIELD_MODULUS) ∧
    t.root < FIELD_MODULUS ∧
    (∀ (index : Int) (sibs : List Nat) (poss : List Int),
      t.opening index = .ok (sibs, poss) → ∀ s ∈ sibs, s < FIELD_MODULUS) := by
  obtain ⟨hne0, rfl⟩ := build_ok (merkle_hash2 digest) leaves t hbuild
  simp only [MerkleTree.levels, MerkleTree.root]
  have hleaf : ∀ v ∈ leaves.map field, v < FIELD_MODULUS := by
    intro v hv
    obtain ⟨x, -, rfl⟩ := List.mem_map.mp hv
    exact field_lt x
  have hall := buildLevels_all_lt (merkle_hash2 digest) (merkle_hash2_lt digest)
    (leaves.map field) hleaf
  refine ⟨hall, ?_, ?_⟩
  · rw [headD_eq_getD_zero]
    exact getD_lt _
      (hall _ (getLastD_mem _ (buildLevels_ne_nil (merkle_hash2 digest) _))) 0
  · intro index sibs poss hopen
    rw [MerkleTree.opening] at hopen
    split at hopen
    · exact absurd hopen (by simp)
    · injection hopen with hpair
      have hsibs : sibs = (openingWalk index.toNat
          (buildLevels (merkle_hash2 digest) (leaves.map field)).dropLast).1 := by
        rw [hpair]
      subst hsibs
      exact openingWalk_sibs_lt _ index.toNat
        (fun lvl hlvl => hall lvl ((List.dropLast_sublist _).mem hlvl))

/-- C10 witness: the two-leaf tree under `merkle_hash2 digestEx`. -/
theorem C10_field_range_witness :
    (∀ lvl ∈ (MerkleTree.mk [1, 2] [[1, 2], [68]]).levels, ∀ v ∈ lvl, v < FIELD_MODULUS) ∧
    (MerkleTree.mk [1, 2] [[1, 2], [68]]).root < FIELD_MODULUS ∧
    (∀ (index : Int) (sibs : List Nat) (poss : List Int),
      (MerkleTree.mk [1, 2] [[1, 2], [68]]).opening index = .ok (sibs, poss) →
        ∀ s ∈ sibs, s < FIELD_MODULUS) :=
  C10_field_range digestEx [1, 2] ⟨[1, 2], [[1, 2], [68]]⟩
    (by simp +decide [MerkleTree.build, buildLevels, buildStep, merkle_hash2,
      sha256_to_field, digestEx, field, FIELD_MODULUS])

end StatelessEth
